import Mathlib

/-!
Shallow embedding of the streaming text-splitting core of `oobabot`
(`src/oobabot/ooba_client.py`) and of the template validator
(`src/oobabot/templates.py`).

Python strings are modelled as lists of characters (`Str`); Python
generators are modelled as functions returning the list of everything
they yield together with the final object state; wall-clock timestamps
(`time.perf_counter()`) are modelled as natural numbers attached to each
incoming event.
-/

set_option maxHeartbeats 1000000

abbrev Str := List Char

/-- Whitespace as recognised by Python's `str.strip()` on ASCII text:
space, tab, newline, carriage return, vertical tab and form feed. -/
def isPySpace (c : Char) : Bool :=
  c = ' ' || c = '\t' || c = '\n' || c = '\r' || c = '\x0b' || c = '\x0c'

/-- Python's `str.strip()`: drop leading and trailing whitespace. -/
def pyStrip (s : Str) : Str :=
  ((s.dropWhile isPySpace).reverse.dropWhile isPySpace).reverse

/-- The mutable state of a `MessageSplitter` instance:
`printed_idx` and `full_response` (`ooba_client.py`, lines 30-32). -/
structure SplitterState where
  printed_idx : Nat
  full_response : Str
deriving DecidableEq, Repr

/-- Constant `MessageSplitter.END_OF_INPUT` (`ooba_client.py`, line 28): the
sentinel is the empty string. -/
def MessageSplitter.END_OF_INPUT : Str := []

/-- Method `MessageSplitter.next` (`ooba_client.py`, lines 34-65), with the
subclass's `partition` passed in as a function from the (updated) state
and the unseen window to the yielded messages and the new state.
Returns the list of yielded messages and the state after the generator
is fully consumed. -/
def MessageSplitter.next (part : SplitterState → Str → List Str × SplitterState)
    (st : SplitterState) (new_token : Str) : List Str × SplitterState :=
  let full_response := st.full_response ++ new_token
  let unseen := full_response.drop st.printed_idx
  if MessageSplitter.END_OF_INPUT = new_token then
    ((if pyStrip unseen ≠ [] then [unseen] else []),
      ⟨st.printed_idx + unseen.length, full_response⟩)
  else
    part ⟨st.printed_idx, full_response⟩ unseen

/-- Abstraction of a compiled regular expression as used by
`RegexSplitter.partition`: `re.Pattern.match` anchored at the start of
the input, returning the text of capture group 1 and `match.end()`.
The bundled fact `h_end` is a guarantee of Python's `re` module: the
end of a match never lies beyond the end of the matched string. -/
structure Matcher where
  matchFn : Str → Option (Str × Nat)
  h_end : ∀ s g e, matchFn s = some (g, e) → e ≤ s.length

/-- The `while True` loop of `RegexSplitter.partition`
(`ooba_client.py`, lines 82-89), with explicit fuel.  Returns the
yielded groups, the final `printed_idx`, and `true` when the loop
reached its `break` (no match) rather than running out of fuel. -/
def regexLoop (m : Matcher) : Nat → Str → Nat → Str → List Str × Nat × Bool
  | 0, _, printed_idx, _ => ([], printed_idx, false)
  | fuel + 1, full, printed_idx, unseen =>
    match m.matchFn unseen with
    | none => ([], printed_idx, true)
    | some (g, e) =>
      let idx := printed_idx + e
      let r := regexLoop m fuel full idx (full.drop idx)
      (g :: r.1, r.2)

/-- Method `RegexSplitter.partition` (`ooba_client.py`, lines 81-89): run the
match loop starting from the caller-supplied unseen window, advancing
`printed_idx` by `match.end()` after each yielded group and recomputing
the window from `full_response`. -/
def RegexSplitter.partition (m : Matcher) (fuel : Nat)
    (st : SplitterState) (unseen : Str) : List Str × SplitterState :=
  let r := regexLoop m fuel st.full_response st.printed_idx unseen
  (r.1, ⟨r.2.1, st.full_response⟩)

/-- The anchored lazy pattern `(.*?)\n`: matches exactly when the input
contains a newline; group 1 is everything before the first newline and
`match.end()` is the position just after it (`.` does not match `\n`
in Python, so the lazy match stops at the first newline). -/
def newlineMatchFn : Str → Option (Str × Nat)
  | [] => none
  | c :: rest =>
    if c = '\n' then some ([], 1)
    else
      match newlineMatchFn rest with
      | none => none
      | some (g, e) => some (c :: g, e + 1)

theorem newlineMatchFn_le (s : Str) (g : Str) (e : Nat)
    (h : newlineMatchFn s = some (g, e)) : e ≤ s.length := by
  induction s generalizing g e with
  | nil => simp [newlineMatchFn] at h
  | cons c rest ih =>
    by_cases hc : c = '\n'
    · simp [newlineMatchFn, hc] at h
      simp [List.length_cons]
      omega
    · simp only [newlineMatchFn, if_neg hc] at h
      cases hr : newlineMatchFn rest with
      | none => rw [hr] at h; simp at h
      | some p =>
        rw [hr] at h
        obtain ⟨g', e'⟩ := p
        simp only [Option.some.injEq, Prod.mk.injEq] at h
        have := ih g' e' hr
        simp [List.length_cons]
        omega

/-- The matcher for the pattern `(.*?)\n`. -/
def newlineMatcher : Matcher :=
  ⟨newlineMatchFn, newlineMatchFn_le⟩

/-- A pattern that matches the empty string at the start of every
window, e.g. `(.*?)`: `match.end()` is always `0`. -/
def emptyMatcher : Matcher :=
  ⟨fun _ => some ([], 0), by intro s g e h; simp at h; omega⟩

/-- A sentence span as produced by `pysbd` with `char_span=True`:
fields `sent`, `start`, `end` (the code reads only `sent` and the
`start` of the last span; `end` is modelled as `stop`). -/
structure TextSpan where
  sent : Str
  start : Nat
  stop : Nat
deriving DecidableEq, Repr

/-- Abstraction of the `pysbd` segmenter used by `SentenceSplitter`:
given text, return sentence spans in document order covering it.  The
bundled fact `h_last_start` is the part of the covering guarantee the
code relies on: the last span starts at an offset inside (or at the end
of) the segmented text. -/
structure Segmenter where
  segment : Str → List TextSpan
  h_last_start :
    ∀ s sp, (segment s).getLast? = some sp → sp.start ≤ s.length

/-- The trailing-newline removal of `SentenceSplitter.partition`
(`ooba_client.py`, lines 119-121): `if to_print.endswith("\n"):
to_print = to_print[:-1]`. -/
def stripTrailingNewline (s : Str) : Str :=
  if s.getLast? = some '\n' then s.dropLast else s

/-- The `for sentence_w_char_spans in segments[:-1]` loop of
`SentenceSplitter.partition` (`ooba_client.py`, lines 110-123):
yield every span's text except the last span's, each with one trailing
newline stripped. -/
def sentenceEmitLoop : List TextSpan → List Str
  | [] => []
  | [_] => []
  | sp :: rest => stripTrailingNewline sp.sent :: sentenceEmitLoop rest

/-- Method `SentenceSplitter.partition` (`ooba_client.py`, lines 102-129):
segment the unseen window, yield all spans but the last, then advance
`printed_idx` by the start offset of the last span (if any). -/
def SentenceSplitter.partition (seg : Segmenter)
    (st : SplitterState) (unseen : Str) : List Str × SplitterState :=
  let segments := seg.segment unseen
  let out := sentenceEmitLoop segments
  match segments.getLast? with
  | some sp => (out, ⟨st.printed_idx + sp.start, st.full_response⟩)
  | none => (out, ⟨st.printed_idx, st.full_response⟩)

/-- The two concrete `MessageSplitter` subclasses.  A `regex` splitter
carries its matcher; each call additionally receives fuel for the
partition loop (the loop is not total for arbitrary matchers). -/
inductive SplitterImpl where
  | regex (m : Matcher)
  | sentence (seg : Segmenter)

/-- One `next` call on a concrete splitter; for the regex splitter the
call carries the fuel for its partition loop. -/
def SplitterImpl.next : SplitterImpl → SplitterState → Str × Nat → List Str × SplitterState
  | .regex m, st, (tok, fuel) => MessageSplitter.next (RegexSplitter.partition m fuel) st tok
  | .sentence seg, st, (tok, _) => MessageSplitter.next (SentenceSplitter.partition seg) st tok

/-- Feed a list of tokens to one splitter instance, collecting the
messages yielded by each call. -/
def runSplitter (impl : SplitterImpl) (st : SplitterState) :
    List (Str × Nat) → SplitterState × List (List Str)
  | [] => (st, [])
  | c :: rest =>
    let r := impl.next st c
    let rr := runSplitter impl r.2 rest
    (rr.1, r.1 :: rr.2)

/-- The splitter state after a sequence of `next` calls, starting from
the freshly-constructed state `printed_idx = 0`, `full_response = ""`. -/
def stateAfter (impl : SplitterImpl) (calls : List (Str × Nat)) (k : Nat) : SplitterState :=
  (calls.take k).foldl (fun st c => (impl.next st c).2) ⟨0, []⟩

/-- Method `OobaClient.request_as_grouped_tokens` (`ooba_client.py`, lines
204-226), abstracted over the underlying token stream: each event is a
token string paired with the `time.perf_counter()` reading taken while
processing it.  `lastResp` is the `last_response` timestamp and `buf`
the `tokens` accumulator.  Comparing against
`SentenceSplitter.END_OF_INPUT` is comparing against the empty string
(the constant is inherited from `MessageSplitter`). -/
def OobaClient.request_as_grouped_tokens (interval : Nat) :
    Nat → Str → List (Str × Nat) → List Str
  | _, _, [] => []
  | lastResp, buf, (tok, now) :: rest =>
    if tok = MessageSplitter.END_OF_INPUT then
      if buf ≠ [] then [buf] else []
    else
      let buf' := buf ++ tok
      if now < lastResp + interval then
        OobaClient.request_as_grouped_tokens interval lastResp buf' rest
      else
        buf' :: OobaClient.request_as_grouped_tokens interval now [] rest

/-- The time-triggered batches of the grouping loop: the same
recursion as `request_as_grouped_tokens` restricted to a stream of
ordinary tokens, without the end-of-stream release. -/
def timeBatches (interval : Nat) : Nat → Str → List (Str × Nat) → List Str
  | _, _, [] => []
  | lastResp, buf, (tok, now) :: rest =>
    let buf' := buf ++ tok
    if now < lastResp + interval then
      timeBatches interval lastResp buf' rest
    else
      buf' :: timeBatches interval now [] rest

/-- The contents of the `tokens` accumulator after the grouping loop
has processed a stream of ordinary tokens. -/
def leftoverBuf (interval : Nat) : Nat → Str → List (Str × Nat) → Str
  | _, buf, [] => buf
  | lastResp, buf, (tok, now) :: rest =>
    let buf' := buf ++ tok
    if now < lastResp + interval then
      leftoverBuf interval lastResp buf' rest
    else
      leftoverBuf interval now [] rest

/-- Method `OobaClient.request_by_token` (`ooba_client.py`, lines 258-286),
abstracted over the decoded SSE events: each event carries the `text`
delta and whether `finish_reason` was non-null.  Returns the list of
yielded strings: `text` is yielded only when it differs from
`SentenceSplitter.END_OF_INPUT` (the empty string), and the first event
with a finish reason additionally yields `END_OF_INPUT` and stops the
generator. -/
def OobaClient.request_by_token : List (Str × Bool) → List Str
  | [] => []
  | (text, finished) :: rest =>
    (if text ≠ MessageSplitter.END_OF_INPUT then [text] else []) ++
      (if finished then [MessageSplitter.END_OF_INPUT]
       else OobaClient.request_by_token rest)

/-- C1 (counterexample): `MessageSplitter.END_OF_INPUT` is the empty
string, so feeding the empty string as an ordinary token takes the
terminal flush path rather than delegating to the strategy's
`partition`: on the state `printed_idx = 0`, `full_response = "Hi"`,
`next("")` yields `"Hi"` and advances the cursor to 2, while the
regex partition of the same window yields nothing and moves nothing. -/
theorem c1_counterexample :
    MessageSplitter.END_OF_INPUT = ("" : String).toList
    ∧ MessageSplitter.next (RegexSplitter.partition newlineMatcher 5) ⟨0, "Hi".toList⟩
        ("" : String).toList = (["Hi".toList], ⟨2, "Hi".toList⟩)
    ∧ RegexSplitter.partition newlineMatcher 5 ⟨0, "Hi".toList⟩ ("Hi".toList)
        = ([], ⟨0, "Hi".toList⟩)
    ∧ MessageSplitter.next (RegexSplitter.partition newlineMatcher 5) ⟨0, "Hi".toList⟩
        ("" : String).toList
      ≠ RegexSplitter.partition newlineMatcher 5 ⟨0, "Hi".toList⟩ ("Hi".toList) := by
  refine ⟨rfl, by decide, by decide, by decide⟩

/-- C1 (amended): for every strategy and every non-empty token,
`next(token)` appends the token to `full_response` and returns exactly
what the strategy's `partition` returns on the unseen window of the
appended text, never taking the flush path; but the end-of-stream
marker equals the empty string, so an empty token always takes the
flush path (see the counterexample). -/
theorem c1_next_nonempty_delegates
    (part : SplitterState → Str → List Str × SplitterState)
    (st : SplitterState) (tok : Str) (h : tok ≠ MessageSplitter.END_OF_INPUT) :
    MessageSplitter.next part st tok
      = part ⟨st.printed_idx, st.full_response ++ tok⟩
          ((st.full_response ++ tok).drop st.printed_idx) := by
  unfold MessageSplitter.next
  rw [if_neg fun he => h he.symm]

/-- C1 (witness): the amended theorem applied to the regex splitter on
the token `"a\n"`. -/
theorem c1_witness :
    MessageSplitter.next (RegexSplitter.partition newlineMatcher 5) ⟨0, []⟩ ("a\n".toList)
      = RegexSplitter.partition newlineMatcher 5 ⟨0, "a\n".toList⟩
          (("a\n".toList : Str).drop 0) :=
  c1_next_nonempty_delegates (RegexSplitter.partition newlineMatcher 5) ⟨0, []⟩
    ("a\n".toList) (by decide)

/-- C5: on the end-of-stream marker, `next` yields the untrimmed unseen
window exactly when it is non-empty after stripping surrounding
whitespace (and nothing otherwise), and in both cases advances
`printed_idx` to the length of `full_response`; invoked on an
already-fully-emitted accumulator it yields nothing and leaves the
state unchanged. -/
theorem c5_end_of_input_flush
    (part : SplitterState → Str → List Str × SplitterState)
    (st : SplitterState) (h : st.printed_idx ≤ st.full_response.length) :
    (MessageSplitter.next part st MessageSplitter.END_OF_INPUT).1
      = (if pyStrip (st.full_response.drop st.printed_idx) ≠ []
          then [st.full_response.drop st.printed_idx] else [])
    ∧ (MessageSplitter.next part st MessageSplitter.END_OF_INPUT).2
      = ⟨st.full_response.length, st.full_response⟩
    ∧ (st.printed_idx = st.full_response.length →
        MessageSplitter.next part st MessageSplitter.END_OF_INPUT = ([], st)) := by
  unfold MessageSplitter.next
  rw [if_pos rfl]
  simp only [MessageSplitter.END_OF_INPUT, List.append_nil]
  refine ⟨trivial, ?_, ?_⟩
  · have hd : (st.full_response.drop st.printed_idx).length
        = st.full_response.length - st.printed_idx := List.length_drop _ _
    have : st.printed_idx + (st.full_response.drop st.printed_idx).length
        = st.full_response.length := by omega
    rw [this]
  · intro he
    have hd : st.full_response.drop st.printed_idx = [] := by
      rw [he]; exact List.drop_length _
    rw [hd]
    simp [pyStrip]

/-- C5 (witness): the flush theorem applied at two concrete states:
an already-fully-emitted accumulator (state unchanged, nothing
yielded), and a state with the unseen window `"hi"` (the window is
yielded and the cursor reaches the end). -/
theorem c5_witness :
    MessageSplitter.next (RegexSplitter.partition newlineMatcher 0) ⟨2, "ab".toList⟩
        MessageSplitter.END_OF_INPUT = ([], ⟨2, "ab".toList⟩)
    ∧ (MessageSplitter.next (RegexSplitter.partition newlineMatcher 0) ⟨0, "hi".toList⟩
        MessageSplitter.END_OF_INPUT).2 = ⟨2, "hi".toList⟩ :=
  ⟨(c5_end_of_input_flush (RegexSplitter.partition newlineMatcher 0) ⟨2, "ab".toList⟩
      (by decide)).2.2 (by decide),
   by
    have h := (c5_end_of_input_flush (RegexSplitter.partition newlineMatcher 0)
      ⟨0, "hi".toList⟩ (by decide)).2.1
    rw [h]; decide⟩

/-- C6: the regex splitter for the pattern `(.*?)\n`, fed the tokens
`"Hello"`, `" world\n"`, `"Bye\n"` and then the end-of-stream marker,
emits nothing, then exactly `"Hello world"`, then `"Bye"`, and nothing
on the final flush (the end-of-stream window is empty). -/
theorem c6_delimiter_example :
    runSplitter (.regex newlineMatcher) ⟨0, []⟩
      [("Hello".toList, 5), (" world\n".toList, 5), ("Bye\n".toList, 5),
        (MessageSplitter.END_OF_INPUT, 5)]
    = (⟨16, "Hello world\nBye\n".toList⟩,
        [[], ["Hello world".toList], ["Bye".toList], []]) := by decide

/-- C2 (counterexample): with an interval of 100, tokens
`"a"`,`"b"`,`"c"`,`"d"`,`"e"` at times 0, 30, 60, 90, 150 and
end-of-stream at 160, the grouping loop appends `"e"` to the buffer
before checking the clock, so it releases the single batch `"abcde"`
at time 150 and nothing at end-of-stream — not `"abcd"` then `"e"`. -/
theorem c2_counterexample :
    OobaClient.request_as_grouped_tokens 100 0 []
      [("a".toList, 0), ("b".toList, 30), ("c".toList, 60), ("d".toList, 90),
        ("e".toList, 150), (MessageSplitter.END_OF_INPUT, 160)]
      = ["abcde".toList]
    ∧ OobaClient.request_as_grouped_tokens 100 0 []
      [("a".toList, 0), ("b".toList, 30), ("c".toList, 60), ("d".toList, 90),
        ("e".toList, 150), (MessageSplitter.END_OF_INPUT, 160)]
      ≠ ["abcd".toList, "e".toList] := by
  exact ⟨by decide, by decide⟩

/-- C2 (amended): on that schedule the batching operation releases
exactly one batch, `"abcde"`, at the arrival of `"e"` (time 150 ≥ 100);
the buffer is then empty, so the end-of-stream marker releases no final
batch. -/
theorem c2_batching_example :
    OobaClient.request_as_grouped_tokens 100 0 []
      [("a".toList, 0), ("b".toList, 30), ("c".toList, 60), ("d".toList, 90),
        ("e".toList, 150), (MessageSplitter.END_OF_INPUT, 160)]
      = ["abcde".toList] := by decide

/-- C3 (counterexample): raw mode does not yield empty-string deltas:
on the event stream `text=""` (no finish reason) then `text="a"` (with
a finish reason), `request_by_token` yields `"a"` and the terminal
marker only — the empty delta is skipped. -/
theorem c3_counterexample :
    OobaClient.request_by_token
        [(MessageSplitter.END_OF_INPUT, false), ("a".toList, true)]
      = ["a".toList, MessageSplitter.END_OF_INPUT]
    ∧ OobaClient.request_by_token
        [(MessageSplitter.END_OF_INPUT, false), ("a".toList, true)]
      ≠ [MessageSplitter.END_OF_INPUT, "a".toList, MessageSplitter.END_OF_INPUT] := by
  exact ⟨by decide, by decide⟩

/-- C3 (amended): when the stream finishes cleanly (some event carries
a finish reason), raw mode yields every *non-empty* text delta in
arrival order — empty-string deltas are skipped, because they equal the
end-of-stream sentinel — followed by exactly one terminal end-of-stream
unit at the first finishing event; later events are not consumed. -/
theorem c3_raw_mode (pre : List (Str × Bool)) (t : Str) (post : List (Str × Bool))
    (h : ∀ p ∈ pre, p.2 = false) :
    OobaClient.request_by_token (pre ++ (t, true) :: post)
      = (pre.map Prod.fst ++ [t]).filter (fun s => s ≠ MessageSplitter.END_OF_INPUT)
          ++ [MessageSplitter.END_OF_INPUT] := by
  induction pre with
  | nil =>
    by_cases ht : t = MessageSplitter.END_OF_INPUT <;>
      simp [OobaClient.request_by_token, List.filter, ht]
  | cons p rest ih =>
    obtain ⟨s, b⟩ := p
    have hb : b = false := h (s, b) (List.mem_cons_self _ _)
    subst hb
    have ih' := ih fun q hq => h q (List.mem_cons_of_mem _ hq)
    by_cases hs : s = MessageSplitter.END_OF_INPUT <;>
      simp [OobaClient.request_by_token, List.filter, hs, ih']

/-- C3 (witness): the amended theorem applied to the stream
`"Hel"` (unfinished), `""` (unfinished), `"lo"` (finished). -/
theorem c3_witness :
    OobaClient.request_by_token
        ([("Hel".toList, false), (MessageSplitter.END_OF_INPUT, false)]
          ++ ("lo".toList, true) :: [])
      = ["Hel".toList, "lo".toList, MessageSplitter.END_OF_INPUT] :=
  (c3_raw_mode [("Hel".toList, false), (MessageSplitter.END_OF_INPUT, false)]
    ("lo".toList) [] (by decide)).trans (by decide)

/-- The regex partition loop never moves `printed_idx` backwards, and
never past the end of `full_response`, provided the initial unseen
window is the suffix of `full_response` at `printed_idx`. -/
theorem regexLoop_idx_bounds (m : Matcher) :
    ∀ (fuel : Nat) (full : Str) (idx : Nat),
      idx ≤ full.length →
      idx ≤ (regexLoop m fuel full idx (full.drop idx)).2.1
      ∧ (regexLoop m fuel full idx (full.drop idx)).2.1 ≤ full.length := by
  intro fuel
  induction fuel with
  | zero => intro full idx hle; simp [regexLoop, hle]
  | succ f ih =>
    intro full idx hle
    simp only [regexLoop]
    cases hm : m.matchFn (full.drop idx) with
    | none => simp [hle]
    | some p =>
      obtain ⟨g, e⟩ := p
      have he : e ≤ (full.drop idx).length := m.h_end _ g e hm
      rw [List.length_drop] at he
      have hle' : idx + e ≤ full.length := by omega
      have := ih full (idx + e) hle'
      exact ⟨le_trans (Nat.le_add_right idx e) this.1, this.2⟩

/-- One `next` call on either concrete splitter preserves the cursor
invariant, never decreases the cursor, and only appends to the
accumulated text. -/
theorem next_step_bounds (impl : SplitterImpl) (st : SplitterState) (c : Str × Nat)
    (h : st.printed_idx ≤ st.full_response.length) :
    st.printed_idx ≤ ((impl.next st c).2).printed_idx
    ∧ ((impl.next st c).2).printed_idx ≤ ((impl.next st c).2).full_response.length
    ∧ ∃ t, ((impl.next st c).2).full_response = st.full_response ++ t := by
  obtain ⟨tok, fuel⟩ := c
  have hlen : st.printed_idx ≤ (st.full_response ++ tok).length := by
    rw [List.length_append]; omega
  have hflush :
      st.printed_idx ≤ (st.printed_idx + ((st.full_response ++ tok).drop st.printed_idx).length)
      ∧ (st.printed_idx + ((st.full_response ++ tok).drop st.printed_idx).length)
          ≤ (st.full_response ++ tok).length := by
    rw [List.length_drop]; omega
  cases impl with
  | regex m =>
    simp only [SplitterImpl.next, MessageSplitter.next]
    by_cases he : MessageSplitter.END_OF_INPUT = tok
    · rw [if_pos he]
      exact ⟨hflush.1, hflush.2, tok, rfl⟩
    · rw [if_neg he]
      simp only [RegexSplitter.partition]
      have := regexLoop_idx_bounds m fuel (st.full_response ++ tok) st.printed_idx hlen
      exact ⟨this.1, this.2, tok, rfl⟩
  | sentence seg =>
    simp only [SplitterImpl.next, MessageSplitter.next]
    by_cases he : MessageSplitter.END_OF_INPUT = tok
    · rw [if_pos he]
      exact ⟨hflush.1, hflush.2, tok, rfl⟩
    · rw [if_neg he]
      simp only [SentenceSplitter.partition]
      cases hg : (seg.segment ((st.full_response ++ tok).drop st.printed_idx)).getLast? with
      | none => simp only [hg]; exact ⟨Nat.le_refl _, hlen, tok, rfl⟩
      | some sp =>
        have hsp := seg.h_last_start _ sp hg
        rw [List.length_drop] at hsp
        simp only [hg]
        refine ⟨Nat.le_add_right _ _, ?_, tok, rfl⟩
        omega

/-- Starting from a state that satisfies the cursor invariant, any
sequence of `next` calls keeps satisfying it. -/
theorem foldl_next_bound (impl : SplitterImpl) :
    ∀ (calls : List (Str × Nat)) (st : SplitterState),
      st.printed_idx ≤ st.full_response.length →
      (calls.foldl (fun st c => (impl.next st c).2) st).printed_idx
        ≤ (calls.foldl (fun st c => (impl.next st c).2) st).full_response.length := by
  intro calls
  induction calls with
  | nil => intro st h; exact h
  | cons c rest ih =>
    intro st h
    exact ih ((impl.next st c).2) (next_step_bounds impl st c h).2.1

/-- C4: over any sequence of `next` calls on either concrete splitter
(regex- or sentence-based), the cursor `printed_idx` never decreases
from one call to the next, after every call it satisfies
`printed_idx ≤ length full_response` (it is a `Nat`, so `0 ≤
printed_idx` holds trivially), and `full_response` is only ever
appended to. -/
theorem c4_cursor_invariants (impl : SplitterImpl) (calls : List (Str × Nat)) (k : Nat) :
    (stateAfter impl calls k).printed_idx ≤ (stateAfter impl calls (k + 1)).printed_idx
    ∧ (stateAfter impl calls k).printed_idx
        ≤ (stateAfter impl calls k).full_response.length
    ∧ ∃ t, (stateAfter impl calls (k + 1)).full_response
        = (stateAfter impl calls k).full_response ++ t := by
  have hinv : (stateAfter impl calls k).printed_idx
      ≤ (stateAfter impl calls k).full_response.length :=
    foldl_next_bound impl (calls.take k) ⟨0, []⟩ (Nat.le_refl 0)
  rcases Nat.lt_or_ge k calls.length with hk | hk
  · have hgt : calls.take (k + 1) = calls.take k ++ [calls[k]] :=
      (List.take_concat_get' calls k hk).symm
    have hstep : stateAfter impl calls (k + 1)
        = (impl.next (stateAfter impl calls k) calls[k]).2 := by
      unfold stateAfter
      rw [hgt, List.foldl_append]
      rfl
    rw [hstep]
    have := next_step_bounds impl (stateAfter impl calls k) calls[k] hinv
    exact ⟨this.1, hinv, this.2.2⟩
  · have hgt : calls.take (k + 1) = calls.take k := by
      rw [List.take_of_length_le hk, List.take_of_length_le (Nat.le_succ_of_le hk)]
    have hstep : stateAfter impl calls (k + 1) = stateAfter impl calls k := by
      unfold stateAfter; rw [hgt]
    rw [hstep]
    exact ⟨Nat.le_refl _, hinv, [], (List.append_nil _).symm⟩

/-- Every match of the pattern `(.*?)\n` consumes at least one
character. -/
theorem newlineMatchFn_pos (s : Str) (g : Str) (e : Nat)
    (h : newlineMatchFn s = some (g, e)) : 1 ≤ e := by
  cases s with
  | nil => simp [newlineMatchFn] at h
  | cons c rest =>
    by_cases hc : c = '\n'
    · simp [newlineMatchFn, hc] at h
      omega
    · simp only [newlineMatchFn, if_neg hc] at h
      cases hr : newlineMatchFn rest with
      | none => rw [hr] at h; simp at h
      | some p =>
        rw [hr] at h
        obtain ⟨g', e'⟩ := p
        simp only [Option.some.injEq, Prod.mk.injEq] at h
        omega

/-- C9: if every successful anchored match consumes at least one
character, the `while True` loop of `RegexSplitter.partition`
terminates on every unseen window (fuel exceeding the window length
makes it reach its `break`); whereas for a pattern that matches the
empty string at the start of every window the loop never reaches its
`break`, no matter how much fuel it is given. -/
theorem c9_regex_loop_termination :
    (∀ (m : Matcher),
      (∀ s g e, m.matchFn s = some (g, e) → 1 ≤ e) →
      ∀ (fuel : Nat) (full : Str) (idx : Nat),
        full.length - idx < fuel →
        (regexLoop m fuel full idx (full.drop idx)).2.2 = true)
    ∧ (∀ (fuel : Nat) (full : Str) (idx : Nat) (unseen : Str),
        (regexLoop emptyMatcher fuel full idx unseen).2.2 = false) := by
  constructor
  · intro m hpos fuel
    induction fuel with
    | zero => intro full idx hf; omega
    | succ f ih =>
      intro full idx hf
      simp only [regexLoop]
      cases hm : m.matchFn (full.drop idx) with
      | none => rfl
      | some p =>
        obtain ⟨g, e⟩ := p
        have h1 := hpos _ g e hm
        have h2 := m.h_end _ g e hm
        rw [List.length_drop] at h2
        exact ih full (idx + e) (by omega)
  · intro fuel
    induction fuel with
    | zero => intro full idx unseen; rfl
    | succ f ih =>
      intro full idx unseen
      simp only [regexLoop, emptyMatcher]
      exact ih full (idx + 0) (full.drop (idx + 0))

/-- C9 (witness): with the newline pattern (which always consumes at
least one character) the loop breaks within the fuel bound on the
window `"a\n"`; with the empty-matching pattern it never breaks. -/
theorem c9_witness :
    (regexLoop newlineMatcher 3 ("a\n".toList) 0 (("a\n".toList : Str).drop 0)).2.2 = true
    ∧ (regexLoop emptyMatcher 7 ("a\n".toList) 0 ("a\n".toList)).2.2 = false :=
  ⟨c9_regex_loop_termination.1 newlineMatcher newlineMatchFn_pos 3 ("a\n".toList) 0
      (by decide),
    c9_regex_loop_termination.2 7 ("a\n".toList) 0 ("a\n".toList)⟩

/-- The emit loop of `SentenceSplitter.partition` yields exactly the
stripped texts of all spans but the last. -/
theorem sentenceEmitLoop_eq :
    ∀ (l : List TextSpan),
      sentenceEmitLoop l = l.dropLast.map (fun sp => stripTrailingNewline sp.sent)
  | [] => rfl
  | [_] => rfl
  | a :: b :: rest => by
    rw [show sentenceEmitLoop (a :: b :: rest)
        = stripTrailingNewline a.sent :: sentenceEmitLoop (b :: rest) from rfl]
    rw [sentenceEmitLoop_eq (b :: rest)]
    rfl

/-- C7: on any unseen window, `SentenceSplitter.partition` emits the
stripped texts of all segmenter spans except the last, in order (so it
emits one unit fewer than there are spans and never the last span);
the cursor advances by the start offset of the last span, and by
nothing when the segmenter returns no spans; `full_response` is
untouched; and the per-unit stripping removes exactly one trailing
newline when one is present and changes nothing otherwise (all other
trailing whitespace preserved). -/
theorem c7_sentence_partition (seg : Segmenter) (st : SplitterState) (unseen : Str) :
    (SentenceSplitter.partition seg st unseen).1
      = (seg.segment unseen).dropLast.map (fun sp => stripTrailingNewline sp.sent)
    ∧ ((SentenceSplitter.partition seg st unseen).1).length
        = (seg.segment unseen).length - 1
    ∧ (SentenceSplitter.partition seg st unseen).2.printed_idx
        = st.printed_idx
          + (match (seg.segment unseen).getLast? with
              | some sp => sp.start
              | none => 0)
    ∧ (SentenceSplitter.partition seg st unseen).2.full_response = st.full_response
    ∧ (∀ s : Str, s.getLast? = some '\n' → stripTrailingNewline s = s.dropLast)
    ∧ (∀ s : Str, s.getLast? ≠ some '\n' → stripTrailingNewline s = s) := by
  refine ⟨?_, ?_, ?_, ?_, ?_, ?_⟩
  · cases hg : (seg.segment unseen).getLast? <;>
      simp [SentenceSplitter.partition, hg, sentenceEmitLoop_eq]
  · cases hg : (seg.segment unseen).getLast? <;>
      simp [SentenceSplitter.partition, hg, sentenceEmitLoop_eq,
        List.length_map, List.length_dropLast]
  · cases hg : (seg.segment unseen).getLast? <;>
      simp [SentenceSplitter.partition, hg]
  · cases hg : (seg.segment unseen).getLast? <;>
      simp [SentenceSplitter.partition, hg]
  · intro s hs; simp [stripTrailingNewline, hs]
  · intro s hs; simp [stripTrailingNewline, hs]

/-- A concrete segmenter used to exercise the sentence-partition
theorem: windows of five or more characters are cut after the fifth
character, shorter windows form a single span. -/
def demoSegmenter : Segmenter where
  segment s :=
    if 5 ≤ s.length then [⟨s.take 5, 0, 5⟩, ⟨s.drop 5, 5, s.length⟩]
    else [⟨s, 0, s.length⟩]
  h_last_start := by
    intro s sp h
    by_cases h5 : 5 ≤ s.length
    · simp [h5, List.getLast?] at h
      subst h
      exact h5
    · simp [h5, List.getLast?] at h
      subst h
      exact Nat.zero_le _

/-- C7 (witness): the sentence-partition theorem applied to the window
`"One. Two. "` under the demo segmenter, plus the trailing-newline
strip at `"One.\n"`. -/
theorem c7_witness :
    (SentenceSplitter.partition demoSegmenter ⟨0, "One. Two. ".toList⟩
        ("One. Two. ".toList)).1 = ["One. ".toList]
    ∧ (SentenceSplitter.partition demoSegmenter ⟨0, "One. Two. ".toList⟩
        ("One. Two. ".toList)).2.printed_idx = 5
    ∧ stripTrailingNewline ("One.\n".toList) = "One.".toList := by
  have h := c7_sentence_partition demoSegmenter ⟨0, "One. Two. ".toList⟩
    ("One. Two. ".toList)
  refine ⟨?_, ?_, ?_⟩
  · rw [h.1]; decide
  · rw [h.2.2.1]; decide
  · have hs := h.2.2.2.2.1 ("One.\n".toList) (by decide)
    rw [hs]; decide

/-- The grouping loop on a marker-terminated stream splits into its
time-triggered batches followed by the end-of-stream release of the
leftover buffer (emitted exactly once, and only when non-empty). -/
theorem grouped_tokens_split (interval T : Nat) :
    ∀ (evs : List (Str × Nat)) (lastResp : Nat) (buf : Str),
      (∀ p ∈ evs, p.1 ≠ MessageSplitter.END_OF_INPUT) →
      OobaClient.request_as_grouped_tokens interval lastResp buf
          (evs ++ [(MessageSplitter.END_OF_INPUT, T)])
        = timeBatches interval lastResp buf evs
            ++ (if leftoverBuf interval lastResp buf evs ≠ []
                then [leftoverBuf interval lastResp buf evs] else []) := by
  intro evs
  induction evs with
  | nil =>
    intro lastResp buf _
    simp [OobaClient.request_as_grouped_tokens, timeBatches, leftoverBuf]
  | cons p rest ih =>
    intro lastResp buf hne
    obtain ⟨tok, now⟩ := p
    have htok : tok ≠ MessageSplitter.END_OF_INPUT :=
      hne (tok, now) (List.mem_cons_self _ _)
    have hrest := fun q hq => hne q (List.mem_cons_of_mem _ hq)
    simp only [List.cons_append, List.append_eq, OobaClient.request_as_grouped_tokens,
      timeBatches, leftoverBuf, if_neg htok]
    by_cases ht : now < lastResp + interval
    · simp only [if_pos ht]
      exact ih lastResp (buf ++ tok) hrest
    · simp only [if_neg ht, List.cons_append]
      rw [ih now [] hrest]

/-- Concatenating the time-triggered batches and the leftover buffer
recovers the initial buffer followed by every token of the stream. -/
theorem timeBatches_flatten (interval : Nat) :
    ∀ (evs : List (Str × Nat)) (lastResp : Nat) (buf : Str),
      (timeBatches interval lastResp buf evs).flatten
          ++ leftoverBuf interval lastResp buf evs
        = buf ++ (evs.map Prod.fst).flatten := by
  intro evs
  induction evs with
  | nil => intro lastResp buf; simp [timeBatches, leftoverBuf]
  | cons p rest ih =>
    intro lastResp buf
    obtain ⟨tok, now⟩ := p
    simp only [timeBatches, leftoverBuf, List.map_cons]
    by_cases ht : now < lastResp + interval
    · rw [if_pos ht, if_pos ht, ih lastResp (buf ++ tok)]
      simp [List.append_assoc]
    · rw [if_neg ht, if_neg ht]
      have h2 := ih now []
      simp only [List.nil_append] at h2
      simp [List.flatten_cons, List.append_assoc, h2]

/-- C8: for every schedule of ordinary (non-marker) tokens followed by
the end-of-stream marker, the grouping operation emits its
time-triggered batches in arrival order followed by at most one final
batch, the final batch is released exactly once — only at the marker
and only when the buffer is non-empty — and the concatenation of all
released batches equals the concatenation of all non-marker tokens of
the stream. -/
theorem c8_grouped_tokens_guarantee (interval lastResp T : Nat)
    (evs : List (Str × Nat))
    (hne : ∀ p ∈ evs, p.1 ≠ MessageSplitter.END_OF_INPUT) :
    OobaClient.request_as_grouped_tokens interval lastResp []
        (evs ++ [(MessageSplitter.END_OF_INPUT, T)])
      = timeBatches interval lastResp [] evs
          ++ (if leftoverBuf interval lastResp [] evs ≠ []
              then [leftoverBuf interval lastResp [] evs] else [])
    ∧ (OobaClient.request_as_grouped_tokens interval lastResp []
        (evs ++ [(MessageSplitter.END_OF_INPUT, T)])).flatten
      = (evs.map Prod.fst).flatten := by
  have hsplit := grouped_tokens_split interval T evs lastResp [] hne
  refine ⟨hsplit, ?_⟩
  rw [hsplit, List.flatten_append]
  have hflat := timeBatches_flatten interval evs lastResp []
  simp only [List.nil_append] at hflat
  by_cases hl : leftoverBuf interval lastResp [] evs = []
  · rw [hl, List.append_nil] at hflat
    simp [hl, hflat]
  · rw [if_pos hl]
    simp [← hflat]

/-- C8 (witness): the grouping guarantee applied to the concrete
five-token schedule of the batching example. -/
theorem c8_witness :
    (OobaClient.request_as_grouped_tokens 100 0 []
        ([("a".toList, 0), ("b".toList, 30), ("c".toList, 60), ("d".toList, 90),
          ("e".toList, 150)] ++ [(MessageSplitter.END_OF_INPUT, 160)])).flatten
      = (([("a".toList, 0), ("b".toList, 30), ("c".toList, 60), ("d".toList, 90),
          ("e".toList, 150)] : List (Str × Nat)).map Prod.fst).flatten :=
  (c8_grouped_tokens_guarantee 100 0 160
    [("a".toList, 0), ("b".toList, 30), ("c".toList, 60), ("d".toList, 90),
      ("e".toList, 150)] (by decide)).2

/-- Helper `find_all_ch` inside `_validate_format_string` (`templates.py`,
lines 267-271): the indices at which a character occurs in a string. -/
def find_all_ch : Str → Char → List Nat
  | [], _ => []
  | a :: rest, c =>
    (if a = c then [0] else []) ++ (find_all_ch rest c).map (· + 1)

/-- The braced form `"{" + allowed_arg + "}"` (`templates.py`, line 280). -/
def braced (T : Str) : Str := '{' :: (T ++ ['}'])

/-- The `for allowed_arg in allowed_args` loop of
`_validate_format_string` (`templates.py`, lines 277-282): the first
allowed token whose braced form occupies the slice
`format_str[open_brace_idx : idx_end + 1]`, returning that token's
`idx_end` (the index of its closing brace); `none` when no allowed
token matches (the `for ... else: raise` case). -/
def tokenEndAt (fmt : Str) (allowed : List Str) (i : Nat) : Option Nat :=
  allowed.findSome? fun T =>
    if (fmt.drop i).take (T.length + 2) = braced T then some (i + T.length + 1)
    else none

/-- Validator `TemplateMessageFormatter._validate_format_string` (`templates.py`,
lines 261-293) as a Boolean: `true` exactly when the Python code
returns without raising `ValueError`.  The first conjunct is the loop
over open-brace indices (raising when some open brace matches no
allowed token); the second is the loop over close-brace indices,
checked against the collected `allowed_close_brace_indices`. -/
def validate_format_string (fmt : Str) (allowed : List Str) : Bool :=
  ((find_all_ch fmt '{').all fun i => (tokenEndAt fmt allowed i).isSome)
    && ((find_all_ch fmt '}').all fun j =>
          decide (j ∈ (find_all_ch fmt '{').filterMap (tokenEndAt fmt allowed)))

/-- The index `i` begins an occurrence of `"{TOKEN}"` for some allowed
token. -/
def beginsTokenOcc (fmt : Str) (allowed : List Str) (i : Nat) : Prop :=
  ∃ T ∈ allowed, (fmt.drop i).take (T.length + 2) = braced T

/-- The index `j` ends an occurrence of `"{TOKEN}"` for some allowed
token. -/
def endsTokenOcc (fmt : Str) (allowed : List Str) (j : Nat) : Prop :=
  ∃ T ∈ allowed, T.length + 1 ≤ j
    ∧ (fmt.drop (j - (T.length + 1))).take (T.length + 2) = braced T

/-- The brace discipline the claim describes: every opening brace
begins an occurrence of a braced allowed token and every closing brace
ends one. -/
def bracesWellFormed (fmt : Str) (allowed : List Str) : Prop :=
  (∀ i ∈ find_all_ch fmt '{', beginsTokenOcc fmt allowed i)
    ∧ (∀ j ∈ find_all_ch fmt '}', endsTokenOcc fmt allowed j)

/-- Python's `str.format(**format_args)` (`templates.py`, line 259)
restricted to the fragment the validated templates can contain:
replacement fields that are plain keyword names (no conversions or
format specs) and the `{{` / `}}` escapes.  `none` models the
exceptions `str.format` raises: an unmatched brace, or a field whose
key is missing from the arguments. -/
def pyFormat (args : Str → Option Str) : Str → Option Str
  | [] => some []
  | c :: rest =>
    if c = '{' then
      match rest with
      | [] => none
      | c2 :: rest2 =>
        if c2 = '{' then (pyFormat args rest2).map (fun out => '{' :: out)
        else
          if (c2 :: rest2).dropWhile (fun ch => ch ≠ '}') = [] then none
          else
            match args ((c2 :: rest2).takeWhile (fun ch => ch ≠ '}')) with
            | some v =>
              (pyFormat args (((c2 :: rest2).dropWhile (fun ch => ch ≠ '}')).tail)).map
                (fun out => v ++ out)
            | none => none
    else if c = '}' then
      match rest with
      | [] => none
      | c2 :: rest2 =>
        if c2 = '}' then (pyFormat args rest2).map (fun out => '}' :: out)
        else none
    else (pyFormat args rest).map (fun out => c :: out)
termination_by l => l.length
decreasing_by
  · simp only [List.length_cons]; omega
  · have hsub := List.Sublist.length_le (List.dropWhile_sublist (l := c2 :: rest2)
      (fun ch => decide (ch ≠ '}')))
    have htl := List.length_tail ((c2 :: rest2).dropWhile (fun ch => decide (ch ≠ '}')))
    simp only [List.length_cons] at hsub htl ⊢
    omega
  · simp only [List.length_cons]; omega
  · simp only [List.length_cons]; omega

/-- The substitution described by the specification of a validated
template: each occurrence of a braced allowed token is replaced by the
corresponding argument, every other character is copied verbatim. -/
def renderTemplate (args : Str → Option Str) (allowed : List Str) : Str → Str
  | [] => []
  | c :: rest =>
    match allowed.findSome? (fun T =>
        if (c :: rest).take (T.length + 2) = braced T then some T else none) with
    | some T => (args T).getD [] ++ renderTemplate args allowed (rest.drop (T.length + 1))
    | none => c :: renderTemplate args allowed rest
termination_by l => l.length
decreasing_by
  · have : (rest.drop (T.length + 1)).length ≤ rest.length := by
      rw [List.length_drop]; omega
    simp; omega
  · simp

/-- Helper `find_all_ch` finds exactly the indices holding the character. -/
theorem mem_find_all_ch (s : Str) (c : Char) :
    ∀ (i : Nat), i ∈ find_all_ch s c ↔ s[i]? = some c := by
  induction s with
  | nil => intro i; simp [find_all_ch]
  | cons a rest ih =>
    intro i
    cases i with
    | zero =>
      by_cases hac : a = c <;>
        simp [find_all_ch, hac, List.mem_map, List.getElem?_cons_zero]
    | succ n =>
      by_cases hac : a = c <;>
        simp [find_all_ch, hac, List.mem_map, List.getElem?_cons_succ, ih n]

/-- The head of a non-empty slice is the character at the slice's
start index. -/
theorem take_slice_head (s : Str) (i n : Nat) (c : Char) (l : Str)
    (h : (s.drop i).take n = c :: l) : s[i]? = some c := by
  cases hd : s.drop i with
  | nil => rw [hd] at h; simp at h
  | cons c2 t =>
    rw [hd] at h
    cases n with
    | zero => simp at h
    | succ m =>
      rw [List.take_succ_cons] at h
      have h0 : (s.drop i)[0]? = some c2 := by
        rw [hd]; exact List.getElem?_cons_zero
      rw [List.getElem?_drop, Nat.add_zero] at h0
      rw [h0]
      exact congrArg some (List.cons.injEq .. ▸ h).1

/-- Unfolding of the first-match search at one candidate token. -/
theorem tokenEndAt_cons (fmt : Str) (T : Str) (ts : List Str) (i : Nat) :
    tokenEndAt fmt (T :: ts) i
      = if (fmt.drop i).take (T.length + 2) = braced T then some (i + T.length + 1)
        else tokenEndAt fmt ts i := by
  by_cases hm : (fmt.drop i).take (T.length + 2) = braced T <;>
    simp [tokenEndAt, List.findSome?_cons, hm]

/-- The first-match search succeeds exactly when some allowed token's
braced form occupies the slice at the open brace. -/
theorem tokenEndAt_isSome_iff (fmt : Str) (allowed : List Str) (i : Nat) :
    (tokenEndAt fmt allowed i).isSome = true ↔ beginsTokenOcc fmt allowed i := by
  induction allowed with
  | nil => simp [tokenEndAt, List.findSome?_nil, beginsTokenOcc]
  | cons T ts ih =>
    rw [tokenEndAt_cons]
    by_cases hm : (fmt.drop i).take (T.length + 2) = braced T
    · simp only [if_pos hm, Option.isSome_some, true_iff]
      exact ⟨T, List.mem_cons_self _ _, hm⟩
    · rw [if_neg hm]
      rw [ih]
      constructor
      · rintro ⟨T2, hT2, hm2⟩
        exact ⟨T2, List.mem_cons_of_mem _ hT2, hm2⟩
      · rintro ⟨T2, hT2, hm2⟩
        rcases List.mem_cons.mp hT2 with rfl | hmem
        · exact absurd hm2 hm
        · exact ⟨T2, hmem, hm2⟩

/-- What a successful first-match search returns: the closing-brace
index of some allowed token whose braced form occupies the slice. -/
theorem tokenEndAt_eq_some (fmt : Str) (allowed : List Str) (i j : Nat)
    (h : tokenEndAt fmt allowed i = some j) :
    ∃ T ∈ allowed, (fmt.drop i).take (T.length + 2) = braced T
      ∧ j = i + T.length + 1 := by
  induction allowed with
  | nil => simp [tokenEndAt, List.findSome?_nil] at h
  | cons T ts ih =>
    rw [tokenEndAt_cons] at h
    by_cases hm : (fmt.drop i).take (T.length + 2) = braced T
    · rw [if_pos hm] at h
      exact ⟨T, List.mem_cons_self _ _, hm, (Option.some.injEq .. ▸ h).symm⟩
    · rw [if_neg hm] at h
      obtain ⟨T2, hT2, hm2, hj⟩ := ih h
      exact ⟨T2, List.mem_cons_of_mem _ hT2, hm2, hj⟩

/-- Two braced allowed tokens occupying the same slice position are
equal, provided neither token contains a closing brace (ordered
case). -/
theorem braced_take_eq_of_le (u T T2 : Str) (hle : T.length ≤ T2.length)
    (h1 : u.take (T.length + 2) = braced T) (h2 : u.take (T2.length + 2) = braced T2)
    (hT2 : '}' ∉ T2) : T = T2 := by
  have key : braced T = (braced T2).take (T.length + 2) := by
    rw [← h2, List.take_take]
    rw [min_eq_left (by omega)]
    exact h1.symm
  rw [braced, braced, List.take_succ_cons] at key
  have key2 : T ++ ['}'] = (T2 ++ ['}']).take (T.length + 1) :=
    (List.cons.injEq .. ▸ key).2
  rcases Nat.lt_or_ge T.length T2.length with hlt | hge
  · exfalso
    have htk : (T2 ++ ['}']).take (T.length + 1) = T2.take (T.length + 1) :=
      List.take_append_of_le_length (by omega)
    rw [htk] at key2
    have hmem : '}' ∈ T2.take (T.length + 1) := by
      rw [← key2]
      exact List.mem_append_right _ (List.mem_singleton.mpr rfl)
    exact hT2 (List.take_subset _ _ hmem)
  · have hlen : T.length + 1 = (T2 ++ ['}']).length := by
      rw [List.length_append, List.length_singleton]
      omega
    rw [hlen, List.take_length] at key2
    exact List.append_cancel_right key2

/-- Two braced allowed tokens occupying the same slice position are
equal, provided neither token contains a closing brace. -/
theorem braced_take_unique (u T T2 : Str)
    (h1 : u.take (T.length + 2) = braced T) (h2 : u.take (T2.length + 2) = braced T2)
    (hT : '}' ∉ T) (hT2 : '}' ∉ T2) : T = T2 := by
  rcases le_total T.length T2.length with h | h
  · exact braced_take_eq_of_le u T T2 h h1 h2 hT2
  · exact (braced_take_eq_of_le u T2 T h h2 h1 hT).symm

/-- Index shift across a prefix, character-lookup form. -/
theorem getElem?_shift (pre rest : Str) (i : Nat) :
    (pre ++ rest)[pre.length + i]? = rest[i]? := by
  rw [← List.getElem?_drop, List.drop_left]

/-- Index shift across a prefix, suffix form. -/
theorem drop_shift (pre rest : Str) (i : Nat) :
    (pre ++ rest).drop (pre.length + i) = rest.drop i := by
  rw [← List.drop_drop, List.drop_left]

/-- Dropping a leading non-brace character preserves the brace
discipline. -/
theorem bracesWellFormed_cons_char (allowed : List Str) (c : Char) (rest : Str)
    (hc1 : c ≠ '{') (hc2 : c ≠ '}')
    (hW : bracesWellFormed (c :: rest) allowed) :
    bracesWellFormed rest allowed := by
  obtain ⟨hop, hcl⟩ := hW
  constructor
  · intro i hi
    have hi2 : (i + 1) ∈ find_all_ch (c :: rest) '{' := by
      rw [mem_find_all_ch, List.getElem?_cons_succ]
      exact (mem_find_all_ch rest '{' i).mp hi
    obtain ⟨T, hT, hm⟩ := hop (i + 1) hi2
    rw [List.drop_succ_cons] at hm
    exact ⟨T, hT, hm⟩
  · intro j hj
    have hj2 : (j + 1) ∈ find_all_ch (c :: rest) '}' := by
      rw [mem_find_all_ch, List.getElem?_cons_succ]
      exact (mem_find_all_ch rest '}' j).mp hj
    obtain ⟨T, hT, hle, hm⟩ := hcl (j + 1) hj2
    by_cases h0 : j + 1 - (T.length + 1) = 0
    · exfalso
      rw [h0, List.drop_zero] at hm
      have hm2 : ((c :: rest).drop 0).take (T.length + 2) = '{' :: (T ++ ['}']) := by
        rw [List.drop_zero]; exact hm
      have hhd := take_slice_head (c :: rest) 0 (T.length + 2) '{' (T ++ ['}']) hm2
      rw [List.getElem?_cons_zero] at hhd
      exact hc1 (Option.some.injEq .. ▸ hhd)
    · have h1 : T.length + 1 ≤ j := by omega
      have heq : j + 1 - (T.length + 1) = (j - (T.length + 1)) + 1 := by omega
      rw [heq, List.drop_succ_cons] at hm
      exact ⟨T, hT, h1, hm⟩

/-- Dropping a leading braced allowed token preserves the brace
discipline, provided no allowed token contains a brace. -/
theorem bracesWellFormed_cons_braced (allowed : List Str) (T0 : Str) (rest : Str)
    (hT0 : T0 ∈ allowed)
    (hbf : ∀ T ∈ allowed, '{' ∉ T ∧ '}' ∉ T)
    (hW : bracesWellFormed (braced T0 ++ rest) allowed) :
    bracesWellFormed rest allowed := by
  obtain ⟨hop, hcl⟩ := hW
  have hprelen : (braced T0).length = T0.length + 2 := by
    simp [braced, List.length_append]
  constructor
  · intro i hi
    have hi2 : ((braced T0).length + i) ∈ find_all_ch (braced T0 ++ rest) '{' := by
      rw [mem_find_all_ch, getElem?_shift]
      exact (mem_find_all_ch rest '{' i).mp hi
    obtain ⟨T, hT, hm⟩ := hop _ hi2
    rw [drop_shift] at hm
    exact ⟨T, hT, hm⟩
  · intro j hj
    have hj2 : ((braced T0).length + j) ∈ find_all_ch (braced T0 ++ rest) '}' := by
      rw [mem_find_all_ch, getElem?_shift]
      exact (mem_find_all_ch rest '}' j).mp hj
    obtain ⟨T, hT, hle, hm⟩ := hcl _ hj2
    by_cases hcase : (braced T0).length + j - (T.length + 1) < (braced T0).length
    · exfalso
      have hm2 : ((braced T0 ++ rest).drop ((braced T0).length + j - (T.length + 1))).take
          (T.length + 2) = '{' :: (T ++ ['}']) := hm
      have hhd := take_slice_head (braced T0 ++ rest) _ (T.length + 2) '{' (T ++ ['}']) hm2
      rw [List.getElem?_append_left hcase] at hhd
      have hzero : (braced T0).length + j - (T.length + 1) = 0 := by
        rcases Nat.eq_zero_or_pos ((braced T0).length + j - (T.length + 1)) with hz | hp
        · exact hz
        · exfalso
          obtain ⟨k, hk⟩ := Nat.exists_eq_add_of_lt hp
          rw [Nat.zero_add] at hk
          rw [hk] at hhd hcase
          have hhd2 : (T0 ++ ['}'])[k]? = some '{' := by
            rw [braced] at hhd
            rw [List.getElem?_cons_succ] at hhd
            exact hhd
          rw [hprelen] at hcase
          have hklt : k < T0.length + 1 := by omega
          by_cases hkT : k < T0.length
          · rw [List.getElem?_append_left hkT] at hhd2
            exact (hbf T0 hT0).1 (List.getElem?_mem hhd2)
          · have hkeq : k = T0.length := by omega
            rw [List.getElem?_append, if_neg (by omega), hkeq] at hhd2
            simp at hhd2
      rw [hzero, List.drop_zero] at hm
      have hT0m : ((braced T0 ++ rest).take (T0.length + 2)) = braced T0 := by
        rw [← hprelen, List.take_append_of_le_length (Nat.le_refl _), List.take_length]
      have hTT0 : T = T0 :=
        braced_take_unique (braced T0 ++ rest) T T0 hm hT0m (hbf T hT).2 (hbf T0 hT0).2
      rw [hTT0] at hzero
      omega
    · have hj3 : T.length + 1 ≤ j := by
        rw [hprelen] at hcase
        omega
      have hi0 : (braced T0).length + j - (T.length + 1)
          = (braced T0).length + (j - (T.length + 1)) := by omega
      rw [hi0, drop_shift] at hm
      exact ⟨T, hT, hj3, hm⟩

/-- A string obeying the brace discipline is empty, starts with a
non-brace character, or starts with a whole braced allowed token; its
remainder obeys the discipline again. -/
theorem bracesWellFormed_step (allowed : List Str) (fmt : Str)
    (hbf : ∀ T ∈ allowed, '{' ∉ T ∧ '}' ∉ T)
    (hW : bracesWellFormed fmt allowed) :
    fmt = []
    ∨ (∃ c rest, fmt = c :: rest ∧ c ≠ '{' ∧ c ≠ '}'
        ∧ bracesWellFormed rest allowed)
    ∨ (∃ T rest, T ∈ allowed ∧ fmt = braced T ++ rest
        ∧ bracesWellFormed rest allowed) := by
  cases fmt with
  | nil => exact Or.inl rfl
  | cons c rest =>
    by_cases hc2 : c = '}'
    · exfalso
      have h0 : 0 ∈ find_all_ch (c :: rest) '}' := by
        rw [mem_find_all_ch, List.getElem?_cons_zero, hc2]
      obtain ⟨T, hT, hle, hm⟩ := hW.2 0 h0
      omega
    · by_cases hc1 : c = '{'
      · have h0 : 0 ∈ find_all_ch (c :: rest) '{' := by
          rw [mem_find_all_ch, List.getElem?_cons_zero, hc1]
        obtain ⟨T, hT, hm⟩ := hW.1 0 h0
        rw [List.drop_zero] at hm
        have hsplit : c :: rest = braced T ++ (c :: rest).drop (T.length + 2) := by
          conv_lhs => rw [← List.take_append_drop (T.length + 2) (c :: rest)]
          rw [hm]
        refine Or.inr (Or.inr ⟨T, (c :: rest).drop (T.length + 2), hT, hsplit, ?_⟩)
        apply bracesWellFormed_cons_braced allowed T _ hT hbf
        rw [← hsplit]
        exact hW
      · refine Or.inr (Or.inl ⟨c, rest, rfl, hc1, hc2, ?_⟩)
        exact bracesWellFormed_cons_char allowed c rest hc1 hc2 hW

/-- The validator returns without raising exactly when every brace of
the format string belongs to a braced allowed token, provided no
allowed token contains a closing brace. -/
theorem validate_iff_wellFormed (fmt : Str) (allowed : List Str)
    (hbf : ∀ T ∈ allowed, '}' ∉ T) :
    validate_format_string fmt allowed = true ↔ bracesWellFormed fmt allowed := by
  unfold validate_format_string bracesWellFormed
  rw [Bool.and_eq_true, List.all_eq_true, List.all_eq_true]
  constructor
  · rintro ⟨hop, hcl⟩
    constructor
    · intro i hi
      exact (tokenEndAt_isSome_iff fmt allowed i).mp (hop i hi)
    · intro j hj
      have hj2 := hcl j hj
      rw [decide_eq_true_eq] at hj2
      obtain ⟨i, hi, hsome⟩ := List.mem_filterMap.mp hj2
      obtain ⟨T, hT, hm, hj3⟩ := tokenEndAt_eq_some fmt allowed i j hsome
      refine ⟨T, hT, by omega, ?_⟩
      have hieq : j - (T.length + 1) = i := by omega
      rw [hieq]
      exact hm
  · rintro ⟨hop, hcl⟩
    constructor
    · intro i hi
      exact (tokenEndAt_isSome_iff fmt allowed i).mpr (hop i hi)
    · intro j hj
      rw [decide_eq_true_eq]
      obtain ⟨T, hT, hle, hm⟩ := hcl j hj
      have hiop : (j - (T.length + 1)) ∈ find_all_ch fmt '{' := by
        rw [mem_find_all_ch]
        exact take_slice_head fmt (j - (T.length + 1)) (T.length + 2) '{'
          (T ++ ['}']) hm
      have hsome : (tokenEndAt fmt allowed (j - (T.length + 1))).isSome = true :=
        (tokenEndAt_isSome_iff fmt allowed _).mpr ⟨T, hT, hm⟩
      obtain ⟨j2, hj2⟩ := Option.isSome_iff_exists.mp hsome
      obtain ⟨T2, hT2, hm2, hj3⟩ := tokenEndAt_eq_some fmt allowed _ j2 hj2
      have hTT2 : T2 = T :=
        braced_take_unique (fmt.drop (j - (T.length + 1))) T2 T hm2 hm
          (hbf T2 hT2) (hbf T hT)
      rw [List.mem_filterMap]
      refine ⟨j - (T.length + 1), hiop, ?_⟩
      have hjeq : j2 = j := by
        rw [hj3, hTT2]
        omega
      rw [hj2, hjeq]

/-- Parsing a replacement field: scanning up to the first closing brace
through a brace-free token finds exactly that token. -/
theorem field_scan (rest : Str) :
    ∀ (T : Str), '}' ∉ T →
      (T ++ '}' :: rest).dropWhile (fun ch => ch ≠ '}') = '}' :: rest
      ∧ (T ++ '}' :: rest).takeWhile (fun ch => ch ≠ '}') = T := by
  intro T
  induction T with
  | nil =>
    intro _
    constructor
    · rw [List.nil_append, List.dropWhile_cons, if_neg (by simp)]
    · rw [List.nil_append, List.takeWhile_cons, if_neg (by simp)]
  | cons a T2 ih =>
    intro hT
    have ha : a ≠ '}' := fun h => hT (h ▸ List.mem_cons_self a T2)
    have ih2 := ih fun h => hT (List.mem_cons_of_mem _ h)
    constructor
    · rw [List.cons_append, List.dropWhile_cons, if_pos (by simp [ha])]
      exact ih2.1
    · rw [List.cons_append, List.takeWhile_cons, if_pos (by simp [ha])]
      rw [ih2.2]

/-- The first-match search over the allowed tokens, used by the
rendering function, finds the (unique) token whose braced form starts
the string. -/
theorem findSome?_braced_eq (allowed : List Str) (u : Str) (T : Str)
    (hT : T ∈ allowed) (hm : u.take (T.length + 2) = braced T)
    (hbf : ∀ T2 ∈ allowed, '}' ∉ T2) :
    (allowed.findSome? fun T2 =>
        if u.take (T2.length + 2) = braced T2 then some T2 else none) = some T := by
  induction allowed with
  | nil => cases hT
  | cons a ts ih =>
    rw [List.findSome?_cons]
    by_cases hma : u.take (a.length + 2) = braced a
    · simp only [if_pos hma]
      have haT : a = T :=
        braced_take_unique u a T hma hm (hbf a (List.mem_cons_self _ _)) (hbf T hT)
      rw [haT]
    · simp only [if_neg hma]
      rcases List.mem_cons.mp hT with rfl | hmem
      · exact absurd hm hma
      · exact ih hmem fun T2 h2 => hbf T2 (List.mem_cons_of_mem _ h2)

/-- No braced token starts a string whose head is not an opening
brace. -/
theorem findSome?_braced_none (allowed : List Str) (c : Char) (rest : Str)
    (hc : c ≠ '{') :
    (allowed.findSome? fun T2 =>
        if (c :: rest).take (T2.length + 2) = braced T2 then some T2 else none)
      = none := by
  induction allowed with
  | nil => rfl
  | cons a ts ih =>
    rw [List.findSome?_cons]
    have hma : ¬((c :: rest).take (a.length + 2) = braced a) := by
      intro hm
      rw [List.take_succ_cons, braced] at hm
      exact hc (List.cons.injEq .. ▸ hm).1
    simp only [if_neg hma]
    exact ih

/-- Unfolding of the rendering function at a position where no braced
allowed token starts. -/
theorem renderTemplate_cons_other (args : Str → Option Str) (allowed : List Str)
    (c : Char) (rest : Str)
    (hns : (allowed.findSome? fun T =>
        if (c :: rest).take (T.length + 2) = braced T then some T else none) = none) :
    renderTemplate args allowed (c :: rest) = c :: renderTemplate args allowed rest := by
  rw [renderTemplate, hns]

/-- Unfolding of the rendering function at a braced allowed token. -/
theorem renderTemplate_cons_braced (args : Str → Option Str) (allowed : List Str)
    (T : Str) (rest : Str)
    (hfs : (allowed.findSome? fun T2 =>
        if ('{' :: (T ++ '}' :: rest)).take (T2.length + 2) = braced T2
        then some T2 else none) = some T) :
    renderTemplate args allowed ('{' :: (T ++ '}' :: rest))
      = (args T).getD [] ++ renderTemplate args allowed rest := by
  have hdrop : (T ++ '}' :: rest).drop (T.length + 1) = rest := by
    have hshape : T ++ '}' :: rest = (T ++ ['}']) ++ rest := by
      rw [List.append_assoc]; rfl
    rw [hshape]
    have hlen : T.length + 1 = (T ++ ['}']).length := by
      rw [List.length_append, List.length_singleton]
    rw [hlen, List.drop_left]
  rw [renderTemplate, hfs]
  show (args T).getD []
      ++ renderTemplate args allowed ((T ++ '}' :: rest).drop (T.length + 1)) = _
  rw [hdrop]

/-- Unfolding of `pyFormat` at an ordinary character. -/
theorem pyFormat_cons_other (args : Str → Option Str) (c : Char) (rest : Str)
    (hc1 : c ≠ '{') (hc2 : c ≠ '}') :
    pyFormat args (c :: rest) = (pyFormat args rest).map (fun out => c :: out) := by
  rw [pyFormat.eq_def]
  dsimp only
  rw [if_neg hc1, if_neg hc2]

/-- Unfolding of `pyFormat` at a well-formed replacement field holding
a non-empty, brace-free key. -/
theorem pyFormat_field (args : Str → Option Str) (T : Str) (rest : Str)
    (hT2 : '}' ∉ T) (hT1 : '{' ∉ T) (hTne : T ≠ []) :
    pyFormat args ('{' :: (T ++ '}' :: rest))
      = match args T with
        | some v => (pyFormat args rest).map (fun out => v ++ out)
        | none => none := by
  cases T with
  | nil => exact absurd rfl hTne
  | cons t0 T2 =>
    have ht0 : t0 ≠ '{' := fun h => hT1 (h ▸ List.mem_cons_self _ _)
    have hfs := field_scan rest (t0 :: T2) hT2
    have hd := hfs.1
    have htw := hfs.2
    rw [List.cons_append] at hd htw
    rw [List.cons_append, pyFormat.eq_def]
    dsimp only
    rw [if_pos rfl]
    rw [if_neg ht0, hd, htw]
    rw [if_neg (by simp)]
    rfl

/-- On a template obeying the brace discipline, `str.format` succeeds
and performs exactly the substitution of the braced allowed tokens. -/
theorem pyFormat_eq_render (allowed : List Str)
    (hbf : ∀ T ∈ allowed, '{' ∉ T ∧ '}' ∉ T)
    (hne : ∀ T ∈ allowed, T ≠ [])
    (args : Str → Option Str) (hargs : ∀ T ∈ allowed, (args T).isSome = true) :
    ∀ (n : Nat) (fmt : Str), fmt.length ≤ n → bracesWellFormed fmt allowed →
      pyFormat args fmt = some (renderTemplate args allowed fmt) := by
  intro n
  induction n with
  | zero =>
    intro fmt hlen _
    have hnil : fmt = [] := List.length_eq_zero.mp (Nat.le_zero.mp hlen)
    subst hnil
    rw [pyFormat.eq_def, renderTemplate.eq_def]
  | succ k ih =>
    intro fmt hlen hW
    rcases bracesWellFormed_step allowed fmt hbf hW with
      hnil | ⟨c, rest, rfl, hc1, hc2, hWr⟩ | ⟨T, rest, hT, rfl, hWr⟩
    · subst hnil
      rw [pyFormat.eq_def, renderTemplate.eq_def]
    · rw [pyFormat_cons_other args c rest hc1 hc2]
      rw [renderTemplate_cons_other args allowed c rest
        (findSome?_braced_none allowed c rest hc1)]
      rw [ih rest (by rw [List.length_cons] at hlen; omega) hWr]
      rfl
    · have hshape : braced T ++ rest = '{' :: (T ++ '}' :: rest) := by
        rw [braced, List.cons_append, List.append_assoc]
        rfl
      have hmatch : ('{' :: (T ++ '}' :: rest)).take (T.length + 2) = braced T := by
        rw [← hshape]
        have hblen : T.length + 2 = (braced T).length := by
          rw [braced, List.length_cons, List.length_append, List.length_singleton]
        rw [hblen, List.take_append_of_le_length (Nat.le_refl _), List.take_length]
      have hfs := findSome?_braced_eq allowed ('{' :: (T ++ '}' :: rest)) T hT
        hmatch (fun T2 h2 => (hbf T2 h2).2)
      rw [hshape]
      rw [pyFormat_field args T rest (hbf T hT).2 (hbf T hT).1 (hne T hT)]
      obtain ⟨v, hv⟩ := Option.isSome_iff_exists.mp (hargs T hT)
      rw [renderTemplate_cons_braced args allowed T rest hfs]
      have hrest : rest.length ≤ k := by
        rw [hshape, List.length_cons, List.length_append, List.length_cons] at hlen
        omega
      rw [ih rest hrest hWr, hv]
      simp

/-- C10: under the program's token discipline (allowed tokens are
non-empty and contain no braces — true of every `TemplateToken`),
constructing a `TemplateMessageFormatter` raises `ValueError` exactly
when the format string contains an opening brace that does not begin an
occurrence of a braced allowed token or a closing brace that does not
end one (`validate_format_string = true` means no exception was
raised); consequently, on every successfully validated template in
which all allowed tokens are supplied, `str.format` succeeds and
substitutes exactly the braced allowed-token occurrences. -/
theorem c10_template_validation (fmt : Str) (allowed : List Str)
    (args : Str → Option Str)
    (hbf : ∀ T ∈ allowed, '{' ∉ T ∧ '}' ∉ T)
    (hne : ∀ T ∈ allowed, T ≠ []) :
    (validate_format_string fmt allowed = true ↔ bracesWellFormed fmt allowed)
    ∧ (validate_format_string fmt allowed = true →
        (∀ T ∈ allowed, (args T).isSome = true) →
        pyFormat args fmt = some (renderTemplate args allowed fmt)) := by
  have hiff := validate_iff_wellFormed fmt allowed (fun T hT => (hbf T hT).2)
  refine ⟨hiff, ?_⟩
  intro hv hargs
  exact pyFormat_eq_render allowed hbf hne args hargs fmt.length fmt
    (Nat.le_refl _) (hiff.mp hv)

/-- Arguments supplying both demo tokens, used by the C10 witness. -/
def demoTemplateArgs : Str → Option Str := fun T =>
  if T = "AI_NAME".toList then some ("Bot".toList)
  else if T = "USER_NAME".toList then some ("Sam".toList)
  else none

/-- C10 (witness): the validation theorem applied to the template
`"Hi {USER_NAME}, {AI_NAME}."` with the two tokens `AI_NAME` and
`USER_NAME`. -/
theorem c10_witness :
    (validate_format_string ("Hi {USER_NAME}, {AI_NAME}.".toList)
        ["AI_NAME".toList, "USER_NAME".toList] = true
      ↔ bracesWellFormed ("Hi {USER_NAME}, {AI_NAME}.".toList)
          ["AI_NAME".toList, "USER_NAME".toList])
    ∧ pyFormat demoTemplateArgs ("Hi {USER_NAME}, {AI_NAME}.".toList)
      = some (renderTemplate demoTemplateArgs ["AI_NAME".toList, "USER_NAME".toList]
          ("Hi {USER_NAME}, {AI_NAME}.".toList)) :=
  ⟨(c10_template_validation ("Hi {USER_NAME}, {AI_NAME}.".toList)
      ["AI_NAME".toList, "USER_NAME".toList] demoTemplateArgs
      (by decide) (by decide)).1,
    (c10_template_validation ("Hi {USER_NAME}, {AI_NAME}.".toList)
      ["AI_NAME".toList, "USER_NAME".toList] demoTemplateArgs
      (by decide) (by decide)).2 (by decide) (by decide)⟩
